import Mathlib

/-!
Verification of the rectangle occlusion culling library.

The source is `src/lib.rs` of the `rectangle_occlusion` crate.  Coordinates in
the source are `f32`; the algorithm performs no arithmetic on them at all
(only comparisons and `min`/`max`), so we embed coordinates as rationals,
which carry the same order-theoretic behaviour on every input the program can
meaningfully receive (NaN/infinite coordinates are excluded by the spec as a
precondition).  The `SmallVec` working buffer is embedded as a `List` with
explicit index manipulation mirroring the Rust loop (push at the end,
`swap_remove`, reverse index iteration).
-/

namespace RectOcclusion

/-- A 2d point, mirroring `euclid::default::Point2D<f32>`. -/
structure Point where
  x : ℚ
  y : ℚ
deriving DecidableEq

/-- An axis-aligned box, mirroring `euclid::default::Box2D<f32>`. -/
structure Box2D where
  min : Point
  max : Point
deriving DecidableEq

instance : Inhabited Box2D := ⟨⟨⟨0, 0⟩, ⟨0, 0⟩⟩⟩

/-- Modelled from the spec interface for the external geometry primitive
(`euclid`'s `Box2D::intersects`): strict inequalities on all four sides, so
exactly touching edges do not count as overlapping (spec section 3). -/
def Box2D.intersects (a b : Box2D) : Bool :=
  decide (a.min.x < b.max.x) && decide (a.max.x > b.min.x) &&
  decide (a.min.y < b.max.y) && decide (a.max.y > b.min.y)

theorem Box2D.intersects_iff {a b : Box2D} :
    a.intersects b = true ↔
      a.min.x < b.max.x ∧ b.min.x < a.max.x ∧ a.min.y < b.max.y ∧ b.min.y < a.max.y := by
  simp [Box2D.intersects, gt_iff_lt, and_assoc]

theorem Box2D.intersects_comm {a b : Box2D} : a.intersects b = b.intersects a := by
  by_cases h : a.intersects b = true
  · have h' := Box2D.intersects_iff.mp h
    exact (h.trans (Box2D.intersects_iff.mpr ⟨h'.2.1, h'.1, h'.2.2.2, h'.2.2.1⟩).symm)
  · simp only [Bool.not_eq_true] at h
    by_cases h2 : b.intersects a = true
    · have h' := Box2D.intersects_iff.mp h2
      have : a.intersects b = true := Box2D.intersects_iff.mpr ⟨h'.2.1, h'.1, h'.2.2.2, h'.2.2.1⟩
      rw [this] at h; cases h
    · simp only [Bool.not_eq_true] at h2
      rw [h, h2]

/-- Well-formedness of a box (spec section 3: `min.x ≤ max.x`, `min.y ≤ max.y`;
violating it is a caller error per spec section 7). -/
def Box2D.wf (b : Box2D) : Prop := b.min.x ≤ b.max.x ∧ b.min.y ≤ b.max.y

instance (b : Box2D) : Decidable b.wf := by
  unfold Box2D.wf
  exact inferInstance

/-- Componentwise containment: `a` is a sub-rectangle of (or equal to) `b`. -/
def Box2D.containedIn (a b : Box2D) : Prop :=
  b.min.x ≤ a.min.x ∧ a.max.x ≤ b.max.x ∧ b.min.y ≤ a.min.y ∧ a.max.y ≤ b.max.y

theorem Box2D.containedIn_refl (a : Box2D) : a.containedIn a :=
  ⟨le_refl _, le_refl _, le_refl _, le_refl _⟩

theorem Box2D.containedIn_trans {a b c : Box2D} (h1 : a.containedIn b) (h2 : b.containedIn c) :
    a.containedIn c :=
  ⟨le_trans h2.1 h1.1, le_trans h1.2.1 h2.2.1, le_trans h2.2.2.1 h1.2.2.1,
    le_trans h1.2.2.2 h2.2.2.2⟩

/-- If `a ⊆ b` (componentwise) and `a` intersects `c`, then `b` intersects `c`. -/
theorem Box2D.intersects_of_containedIn {a b c : Box2D} (hab : a.containedIn b)
    (h : a.intersects c = true) : b.intersects c = true := by
  have h' := Box2D.intersects_iff.mp h
  exact Box2D.intersects_iff.mpr
    ⟨lt_of_le_of_lt hab.1 h'.1, lt_of_lt_of_le h'.2.1 hab.2.1,
     lt_of_le_of_lt hab.2.2.1 h'.2.2.1, lt_of_lt_of_le h'.2.2.2 hab.2.2.2⟩

/-- Contrapositive form used for the non-overlap invariant. -/
theorem Box2D.not_intersects_of_containedIn {a b c : Box2D} (hab : a.containedIn b)
    (h : b.intersects c = false) : a.intersects c = false := by
  by_cases ha : a.intersects c = true
  · rw [Box2D.intersects_of_containedIn hab ha] at h; cases h
  · simpa using ha

/-- The half-open point set of a box, the standard exact-area semantics for
this kind of tiling algorithm. -/
def Box2D.toSet (b : Box2D) : Set (ℚ × ℚ) :=
  {p | b.min.x ≤ p.1 ∧ p.1 < b.max.x ∧ b.min.y ≤ p.2 ∧ p.2 < b.max.y}

theorem Box2D.mem_toSet {b : Box2D} {p : ℚ × ℚ} :
    p ∈ b.toSet ↔ b.min.x ≤ p.1 ∧ p.1 < b.max.x ∧ b.min.y ≤ p.2 ∧ p.2 < b.max.y :=
  Iff.rfl

/-- Boxes whose half-open point sets share a point do intersect in the sense
of the primitive test. -/
theorem Box2D.intersects_of_mem {a b : Box2D} {p : ℚ × ℚ}
    (ha : p ∈ a.toSet) (hb : p ∈ b.toSet) : a.intersects b = true := by
  rw [Box2D.mem_toSet] at ha hb
  exact Box2D.intersects_iff.mpr
    ⟨lt_of_le_of_lt ha.1 hb.2.1, lt_of_le_of_lt hb.1 ha.2.1,
     lt_of_le_of_lt ha.2.2.1 hb.2.2.2, lt_of_le_of_lt hb.2.2.1 ha.2.2.2⟩

theorem Box2D.toSet_mono {a b : Box2D} (h : a.containedIn b) : a.toSet ⊆ b.toSet := by
  intro p hp
  rw [Box2D.mem_toSet] at hp ⊢
  exact ⟨le_trans h.1 hp.1, lt_of_lt_of_le hp.2.1 h.2.1,
    le_trans h.2.2.1 hp.2.2.1, lt_of_lt_of_le hp.2.2.2 h.2.2.2⟩

/-- A visible fragment, mirroring `Item` in the source. -/
structure Item where
  rectangle : Box2D
  key : ℕ
deriving DecidableEq

/-- The 0 to 4 visible remainder bands pushed by `apply_occluder` for a
fragment `r` intersecting `occluder`, in push order (top, bottom, left,
right), exactly as in `src/lib.rs` lines 214-249. -/
def splitBands (occluder r : Box2D) : List Box2D :=
  (if r.min.y < occluder.min.y ∧ r.max.y > occluder.min.y then
    [⟨r.min, ⟨r.max.x, occluder.min.y⟩⟩] else []) ++
  (if r.max.y > occluder.max.y ∧ r.min.y < occluder.max.y then
    [⟨⟨r.min.x, occluder.max.y⟩, r.max⟩] else []) ++
  (if r.min.x < occluder.min.x ∧ r.max.x > occluder.min.x then
    [⟨⟨r.min.x, max r.min.y occluder.min.y⟩, ⟨occluder.min.x, min r.max.y occluder.max.y⟩⟩]
   else []) ++
  (if r.max.x > occluder.max.x ∧ r.min.x < occluder.max.x then
    [⟨⟨occluder.max.x, max r.min.y occluder.min.y⟩, ⟨r.max.x, min r.max.y occluder.max.y⟩⟩]
   else [])

/-- Rust `Vec::swap_remove i` (for `i < len`): overwrite position `i` with the
last element, then pop the last element. -/
def swapRemove (l : List Box2D) (i : ℕ) : List Box2D :=
  (l.set i (l.getLastD default)).dropLast

/-- One iteration of the `apply_occluder` loop body at index `i`
(`src/lib.rs` lines 211-259). -/
def occludeStep (occluder : Box2D) (rects : List Box2D) (i : ℕ) : List Box2D :=
  let r := rects.getD i default
  if r.intersects occluder = true then
    let rects2 := rects ++ splitBands occluder r
    if i = rects2.length then rects2.dropLast else swapRemove rects2 i
  else rects

/-- The `apply_occluder` loop, iterating the index downward from its second
argument to 0 (`loop { ... if i == 0 break; i -= 1 }`). -/
def occludeLoop (occluder : Box2D) : List Box2D → ℕ → List Box2D
  | rects, 0 => occludeStep occluder rects 0
  | rects, i + 1 => occludeLoop occluder (occludeStep occluder rects (i + 1)) i

/-- `apply_occluder` (`src/lib.rs` lines 206-267).  The Rust function starts
at index `rects.len() - 1`; on an empty vector that computation panics, which
is tracked separately by the `...CallsEmpty` functions below — this pure model
is only appealed to on calls with a non-empty vector (where it agrees with the
source), and happens to return `[]` on `[]`. -/
def apply_occluder (occluder : Box2D) (rects : List Box2D) : List Box2D :=
  occludeLoop occluder rects (rects.length - 1)

/-- The builder accumulating visible fragments front-to-back. -/
structure FrontToBackBuilder where
  opaque_items : List Item
  alpha_items : List Item
deriving DecidableEq

def FrontToBackBuilder.new : FrontToBackBuilder := ⟨[], []⟩

/-- `with_capacity` only pre-allocates; semantically it is `new`. -/
def FrontToBackBuilder.with_capacity (_o _a : ℕ) : FrontToBackBuilder := ⟨[], []⟩

/-- The fragment loop of `FrontToBackBuilder::add`: walk the stored opaque
items in order, break as soon as the fragment set is empty, and apply each
occluder whose rectangle intersects the input `rect`. -/
def addFrags (rect : Box2D) : List Item → List Box2D → List Box2D
  | [], frags => frags
  | item :: rest, frags =>
    if frags.isEmpty then frags
    else addFrags rect rest
      (if item.rectangle.intersects rect = true then apply_occluder item.rectangle frags
       else frags)

/-- The fragments surviving an `add` of `rect` on builder `b`. -/
def addFragments (b : FrontToBackBuilder) (rect : Box2D) : List Box2D :=
  addFrags rect b.opaque_items [rect]

/-- `FrontToBackBuilder::add` (`src/lib.rs` lines 95-122), returning the
updated builder together with the returned boolean. -/
def FrontToBackBuilder.add (b : FrontToBackBuilder) (rect : Box2D) ( is_opaque : Bool)
    (key : ℕ) : FrontToBackBuilder × Bool :=
  let fragments := addFragments b rect
  let newItems := fragments.map (fun r => { rectangle := r, key := key : Item })
  (if is_opaque then { b with opaque_items := b.opaque_items ++ newItems }
   else { b with alpha_items := b.alpha_items ++ newItems },
   !fragments.isEmpty)

/-- The fragment loop of `FrontToBackBuilder::test` (`src/lib.rs` lines
125-136): identical to `add`'s loop except that there is no emptiness check
before applying an occluder. -/
def testFrags (rect : Box2D) : List Item → List Box2D → List Box2D
  | [], frags => frags
  | item :: rest, frags =>
    testFrags rect rest
      (if item.rectangle.intersects rect = true then apply_occluder item.rectangle frags
       else frags)

def FrontToBackBuilder.test (b : FrontToBackBuilder) (rect : Box2D) : Bool :=
  !(testFrags rect b.opaque_items [rect]).isEmpty

/-- `FrontToBackBuilder::clear`. -/
def FrontToBackBuilder.clear (_b : FrontToBackBuilder) : FrontToBackBuilder := ⟨[], []⟩

/-- Does `test`'s loop ever call `apply_occluder` with an empty fragment
vector?  In the Rust source such a call evaluates `rects.len() - 1` on an
empty vector and then indexes with it, which panics. -/
def testCallsEmpty (rect : Box2D) : List Item → List Box2D → Bool
  | [], _ => false
  | item :: rest, frags =>
    if item.rectangle.intersects rect = true then
      (frags.isEmpty || testCallsEmpty rect rest (apply_occluder item.rectangle frags))
    else testCallsEmpty rect rest frags

def testPanics (b : FrontToBackBuilder) (rect : Box2D) : Bool :=
  testCallsEmpty rect b.opaque_items [rect]

/-- Same tracking for `add`'s loop, which breaks out before applying an
occluder whenever the fragment vector is empty. -/
def addCallsEmpty (rect : Box2D) : List Item → List Box2D → Bool
  | [], _ => false
  | item :: rest, frags =>
    if frags.isEmpty then false
    else if item.rectangle.intersects rect = true then
      (frags.isEmpty || addCallsEmpty rect rest (apply_occluder item.rectangle frags))
    else addCallsEmpty rect rest frags

def addPanics (b : FrontToBackBuilder) (rect : Box2D) : Bool :=
  addCallsEmpty rect b.opaque_items [rect]

/-- Builder states reachable through the public interface: `new()` (also
`with_capacity` and `clear`, which produce the same empty state) followed by
`add` calls with well-formed rectangles (spec sections 3 and 7 make
`min ≤ max` a precondition of the interface). -/
inductive Reachable : FrontToBackBuilder → Prop
  | new : Reachable FrontToBackBuilder.new
  | add (b : FrontToBackBuilder) (rect : Box2D) (q : Bool) (k : ℕ) :
      Reachable b → rect.wf → Reachable (b.add rect q k).1

/-- `BackToFrontBuilder` (`src/lib.rs` lines 274-337). -/
structure BackToFrontBuilder where
  commands : List (Box2D × Bool × ℕ)
  opaque_items : List Item
  alpha_items : List Item
deriving DecidableEq

def BackToFrontBuilder.new : BackToFrontBuilder := ⟨[], [], []⟩

def BackToFrontBuilder.add (b : BackToFrontBuilder) (rect : Box2D) ( is_opaque : Bool)
    (key : ℕ) : BackToFrontBuilder :=
  { b with commands := b.commands ++ [(rect, is_opaque, key)] }

/-- Feeding a command list, in the given order, into a fresh
`FrontToBackBuilder`. -/
def ftbReplay (cmds : List (Box2D × Bool × ℕ)) : FrontToBackBuilder :=
  cmds.foldl (fun acc cmd => (acc.add cmd.1 cmd.2.1 cmd.2.2).1) FrontToBackBuilder.new

/-- `BackToFrontBuilder::build` (`src/lib.rs` lines 299-322): replay the
pending commands in reverse into a fresh front-to-back builder (the Rust code
reuses the cleared storage of the previous result, which is semantically a
fresh builder), keep its opaque list, reverse its alpha list, and clear the
pending commands. -/
def BackToFrontBuilder.build (b : BackToFrontBuilder) : BackToFrontBuilder :=
  let builder := ftbReplay b.commands.reverse
  { commands := [],
    opaque_items := builder.opaque_items,
    alpha_items := builder.alpha_items.reverse }

/-- Submitting a scene to the back-to-front adapter via successive `add`
calls. -/
def b2fSubmit (cmds : List (Box2D × Bool × ℕ)) : BackToFrontBuilder :=
  cmds.foldl (fun acc cmd => acc.add cmd.1 cmd.2.1 cmd.2.2) BackToFrontBuilder.new

/-- Union of the half-open point sets of a list of boxes. -/
def boxesUnion (l : List Box2D) : Set (ℚ × ℚ) := {p | ∃ b ∈ l, p ∈ b.toSet}

/-- The items appended to the target list by one `add` call. -/
def addedItems (b : FrontToBackBuilder) (rect : Box2D) (q : Bool) (k : ℕ) : List Item :=
  if q then (b.add rect q k).1.opaque_items.drop b.opaque_items.length
  else (b.add rect q k).1.alpha_items.drop b.alpha_items.length

/-- Functional description of what `apply_occluder` does to one fragment:
an intersecting fragment is replaced by its visible bands, a non-intersecting
one is kept as is. -/
def splitF (occluder r : Box2D) : List Box2D :=
  if r.intersects occluder = true then splitBands occluder r else [r]

/-- A fully degenerate (point) box produces no bands. -/
theorem splitBands_eq_nil_of_point (o r : Box2D) (hx : r.min.x = r.max.x)
    (hy : r.min.y = r.max.y) : splitBands o r = [] := by
  have h1 : ¬(r.min.y < o.min.y ∧ r.max.y > o.min.y) := by
    rintro ⟨a, b⟩
    rw [hy] at a
    exact absurd (a.trans b) (lt_irrefl _)
  have h2 : ¬(r.max.y > o.max.y ∧ r.min.y < o.max.y) := by
    rintro ⟨a, b⟩
    rw [hy] at b
    exact absurd (b.trans a) (lt_irrefl _)
  have h3 : ¬(r.min.x < o.min.x ∧ r.max.x > o.min.x) := by
    rintro ⟨a, b⟩
    rw [hx] at a
    exact absurd (a.trans b) (lt_irrefl _)
  have h4 : ¬(r.max.x > o.max.x ∧ r.min.x < o.max.x) := by
    rintro ⟨a, b⟩
    rw [hx] at b
    exact absurd (b.trans a) (lt_irrefl _)
  simp [splitBands, h1, h2, h3, h4]

/-- The key behaviour of the loop body at index `A.length` inside the list
`A ++ r :: B`: the prefix `A` is untouched and the rest is, up to order,
`splitF occluder r ++ B`. -/
theorem occludeStep_spec (o r : Box2D) (A B : List Box2D) :
    ∃ tail, occludeStep o (A ++ r :: B) A.length = A ++ tail ∧
      tail.Perm (splitF o r ++ B) := by
  have hget : (A ++ r :: B).getD A.length default = r := by
    rw [List.getD_append_right _ _ _ _ (le_refl _), Nat.sub_self]; rfl
  unfold occludeStep
  rw [hget]
  by_cases hint : r.intersects o = true
  · rw [if_pos hint]
    have hre : (A ++ r :: B) ++ splitBands o r = A ++ r :: (B ++ splitBands o r) := by
      simp
    rw [hre]
    have hlen : ¬ A.length = (A ++ r :: (B ++ splitBands o r)).length := by
      simp only [List.length_append, List.length_cons]
      omega
    rw [if_neg hlen]
    unfold swapRemove
    rcases eq_or_ne (B ++ splitBands o r) [] with hL | hL
    · obtain ⟨hB, hbs⟩ := List.append_eq_nil.mp hL
      rw [hL]
      refine ⟨[], ?_, ?_⟩
      · rw [List.getLastD_concat]
        have hset : (A ++ [r]).set A.length r = A ++ [r] := by
          rw [List.set_append]
          simp
        rw [hset, List.dropLast_concat, List.append_nil]
      · rw [splitF, if_pos hint, hbs, hB]
        exact List.Perm.refl _
    · obtain ⟨L', g, hLg⟩ : ∃ L' g, B ++ splitBands o r = L' ++ [g] :=
        ⟨(B ++ splitBands o r).dropLast, (B ++ splitBands o r).getLast hL,
          (List.dropLast_append_getLast hL).symm⟩
      rw [hLg]
      have hgl : (A ++ r :: (L' ++ [g])).getLastD default = g := by
        rw [show A ++ r :: (L' ++ [g]) = (A ++ r :: L') ++ [g] by simp,
          List.getLastD_concat]
      rw [hgl]
      have hset : (A ++ r :: (L' ++ [g])).set A.length g = A ++ g :: (L' ++ [g]) := by
        rw [List.set_append]
        simp
      rw [hset]
      have hdrop : (A ++ g :: (L' ++ [g])).dropLast = A ++ g :: L' := by
        rw [show A ++ g :: (L' ++ [g]) = (A ++ g :: L') ++ [g] by simp,
          List.dropLast_concat]
      rw [hdrop]
      refine ⟨g :: L', rfl, ?_⟩
      refine (List.perm_append_singleton g L').symm.trans ?_
      rw [← hLg, splitF, if_pos hint]
      exact List.perm_append_comm
  · rw [if_neg hint]
    refine ⟨r :: B, rfl, ?_⟩
    rw [splitF, if_neg hint, List.cons_append, List.nil_append]

/-- Correctness of the downward iteration: processing indices `i, …, 0` of
`A ++ B` (with `A.length = i + 1`) rewrites, up to order, every element of
`A` by `splitF` and leaves `B` alone.  Newly pushed bands are never
revisited. -/
theorem occludeLoop_perm (o : Box2D) :
    ∀ (i : ℕ) (A B : List Box2D), A.length = i + 1 →
      (occludeLoop o (A ++ B) i).Perm (A.flatMap (splitF o) ++ B) := by
  intro i
  induction i with
  | zero =>
    intro A B hA
    match A, hA with
    | [r], _ =>
      obtain ⟨tail, heq, hperm⟩ := occludeStep_spec o r [] B
      simp only [List.nil_append, List.length_nil] at heq
      show (occludeStep o ([r] ++ B) 0).Perm _
      rw [List.singleton_append, heq]
      simpa using hperm
  | succ i ih =>
    intro A B hA
    have hAne : A ≠ [] := by
      intro h
      rw [h] at hA
      cases hA
    obtain ⟨A', r, hAeq, hA'len⟩ : ∃ A' r, A = A' ++ [r] ∧ A'.length = i + 1 := by
      refine ⟨A.dropLast, A.getLast hAne, (List.dropLast_append_getLast hAne).symm, ?_⟩
      rw [List.length_dropLast, hA]
      omega
    subst hAeq
    obtain ⟨tail, heq, hperm⟩ := occludeStep_spec o r A' B
    show (occludeLoop o (occludeStep o ((A' ++ [r]) ++ B) (i + 1)) i).Perm _
    rw [List.append_assoc, List.singleton_append, ← hA'len, heq]
    refine (ih A' tail hA'len).trans ?_
    have hflat : (A' ++ [r]).flatMap (splitF o) = A'.flatMap (splitF o) ++ splitF o r := by
      rw [List.flatMap_append, List.flatMap_cons, List.flatMap_nil, List.append_nil]
    rw [hflat, List.append_assoc]
    exact List.Perm.append_left _ hperm

/-- `apply_occluder` replaces, up to order, every fragment of the working
vector by its visible remainder w.r.t. the occluder. -/
theorem apply_occluder_perm (o : Box2D) (rects : List Box2D) :
    (apply_occluder o rects).Perm (rects.flatMap (splitF o)) := by
  rcases rects with _ | ⟨r0, rest⟩
  · unfold apply_occluder occludeLoop occludeStep
    have hb : splitBands o default = [] :=
      splitBands_eq_nil_of_point o default rfl rfl
    simp [hb]
  · have h := occludeLoop_perm o ((r0 :: rest).length - 1) (r0 :: rest) [] (by simp)
    simpa [apply_occluder] using h

theorem mem_ite_singleton {c : Prop} [Decidable c] {x s : Box2D} :
    (s ∈ if c then [x] else ([] : List Box2D)) ↔ c ∧ s = x := by
  by_cases h : c <;> simp [h]

/-- Membership characterisation of the four candidate bands. -/
theorem mem_splitBands {o r s : Box2D} :
    s ∈ splitBands o r ↔
      ((r.min.y < o.min.y ∧ r.max.y > o.min.y) ∧ s = ⟨r.min, ⟨r.max.x, o.min.y⟩⟩) ∨
      ((r.max.y > o.max.y ∧ r.min.y < o.max.y) ∧ s = ⟨⟨r.min.x, o.max.y⟩, r.max⟩) ∨
      ((r.min.x < o.min.x ∧ r.max.x > o.min.x) ∧
        s = ⟨⟨r.min.x, max r.min.y o.min.y⟩, ⟨o.min.x, min r.max.y o.max.y⟩⟩) ∨
      ((r.max.x > o.max.x ∧ r.min.x < o.max.x) ∧
        s = ⟨⟨o.max.x, max r.min.y o.min.y⟩, ⟨r.max.x, min r.max.y o.max.y⟩⟩) := by
  simp only [splitBands, List.mem_append, mem_ite_singleton]
  tauto

theorem mem_splitBands_containedIn {o r s : Box2D} (h : s ∈ splitBands o r) :
    s.containedIn r := by
  rcases mem_splitBands.mp h with ⟨⟨_, c2⟩, rfl⟩ | ⟨⟨_, c2⟩, rfl⟩ | ⟨⟨_, c2⟩, rfl⟩ |
    ⟨⟨_, c2⟩, rfl⟩
  · exact ⟨le_refl _, le_refl _, le_refl _, le_of_lt c2⟩
  · exact ⟨le_refl _, le_refl _, le_of_lt c2, le_refl _⟩
  · exact ⟨le_refl _, le_of_lt c2, le_max_left _ _, min_le_left _ _⟩
  · exact ⟨le_of_lt c2, le_refl _, le_max_left _ _, min_le_left _ _⟩

/-- A produced band never intersects the occluder that produced it. -/
theorem mem_splitBands_not_intersects {o r s : Box2D} (h : s ∈ splitBands o r) :
    s.intersects o = false := by
  rcases mem_splitBands.mp h with ⟨⟨_, _⟩, rfl⟩ | ⟨⟨_, _⟩, rfl⟩ | ⟨⟨_, _⟩, rfl⟩ |
    ⟨⟨_, _⟩, rfl⟩ <;>
    · by_contra hc
      rw [Bool.not_eq_false] at hc
      have h' := Box2D.intersects_iff.mp hc
      first
        | exact absurd h'.2.2.2 (lt_irrefl _)
        | exact absurd h'.2.2.1 (lt_irrefl _)
        | exact absurd h'.2.1 (lt_irrefl _)
        | exact absurd h'.1 (lt_irrefl _)

theorem mem_splitBands_wf {o r s : Box2D} (hr : r.wf) (ho : o.wf)
    (hint : r.intersects o = true) (h : s ∈ splitBands o r) : s.wf := by
  have hi := Box2D.intersects_iff.mp hint
  rcases mem_splitBands.mp h with ⟨⟨c1, _⟩, rfl⟩ | ⟨⟨c1, _⟩, rfl⟩ | ⟨⟨c1, _⟩, rfl⟩ |
    ⟨⟨c1, _⟩, rfl⟩
  · exact ⟨hr.1, le_of_lt c1⟩
  · exact ⟨hr.1, le_of_lt c1⟩
  · exact ⟨le_of_lt c1,
      le_min (max_le hr.2 (le_of_lt hi.2.2.2)) (max_le (le_of_lt hi.2.2.1) ho.2)⟩
  · exact ⟨le_of_lt c1,
      le_min (max_le hr.2 (le_of_lt hi.2.2.2)) (max_le (le_of_lt hi.2.2.1) ho.2)⟩

/-- The bands produced by one split are pairwise non-overlapping (requires the
occluder to be well-formed). -/
theorem splitBands_pairwise {o : Box2D} (ho : o.wf) (r : Box2D) :
    List.Pairwise (fun a b : Box2D => a.intersects b = false) (splitBands o r) := by
  unfold splitBands
  refine List.pairwise_append.mpr ⟨List.pairwise_append.mpr ⟨List.pairwise_append.mpr
    ⟨?_, ?_, ?_⟩, ?_, ?_⟩, ?_, ?_⟩
  · -- top singleton
    by_cases c : r.min.y < o.min.y ∧ r.max.y > o.min.y <;> simp [c]
  · by_cases c : r.max.y > o.max.y ∧ r.min.y < o.max.y <;> simp [c]
  · -- top vs bottom
    intro a ha b hb
    obtain ⟨_, rfl⟩ := mem_ite_singleton.mp ha
    obtain ⟨_, rfl⟩ := mem_ite_singleton.mp hb
    by_contra hc
    rw [Bool.not_eq_false] at hc
    exact absurd (Box2D.intersects_iff.mp hc).2.2.2 (not_lt.mpr ho.2)
  · by_cases c : r.min.x < o.min.x ∧ r.max.x > o.min.x <;> simp [c]
  · -- (top ++ bottom) vs left
    intro a ha b hb
    obtain ⟨_, rfl⟩ := mem_ite_singleton.mp hb
    by_contra hc
    rw [Bool.not_eq_false] at hc
    have h' := Box2D.intersects_iff.mp hc
    rcases List.mem_append.mp ha with ha' | ha'
    · obtain ⟨_, rfl⟩ := mem_ite_singleton.mp ha'
      exact absurd h'.2.2.2 (not_lt.mpr (le_max_right _ _))
    · obtain ⟨_, rfl⟩ := mem_ite_singleton.mp ha'
      exact absurd h'.2.2.1 (not_lt.mpr (min_le_right _ _))
  · by_cases c : r.max.x > o.max.x ∧ r.min.x < o.max.x <;> simp [c]
  · -- (top ++ bottom ++ left) vs right
    intro a ha b hb
    obtain ⟨_, rfl⟩ := mem_ite_singleton.mp hb
    by_contra hc
    rw [Bool.not_eq_false] at hc
    have h' := Box2D.intersects_iff.mp hc
    rcases List.mem_append.mp ha with ha' | ha'
    · rcases List.mem_append.mp ha' with ha'' | ha''
      · obtain ⟨_, rfl⟩ := mem_ite_singleton.mp ha''
        exact absurd h'.2.2.2 (not_lt.mpr (le_max_right _ _))
      · obtain ⟨_, rfl⟩ := mem_ite_singleton.mp ha''
        exact absurd h'.2.2.1 (not_lt.mpr (min_le_right _ _))
    · obtain ⟨_, rfl⟩ := mem_ite_singleton.mp ha'
      exact absurd h'.2.1 (not_lt.mpr ho.1)

theorem mem_splitF_containedIn {o r s : Box2D} (h : s ∈ splitF o r) : s.containedIn r := by
  unfold splitF at h
  by_cases hint : r.intersects o = true
  · rw [if_pos hint] at h
    exact mem_splitBands_containedIn h
  · rw [if_neg hint] at h
    rw [List.mem_singleton.mp h]
    exact Box2D.containedIn_refl r

theorem mem_splitF_not_intersects {o r s : Box2D} (h : s ∈ splitF o r) :
    s.intersects o = false := by
  unfold splitF at h
  by_cases hint : r.intersects o = true
  · rw [if_pos hint] at h
    exact mem_splitBands_not_intersects h
  · rw [if_neg hint] at h
    rw [List.mem_singleton.mp h]
    simpa using hint

theorem mem_splitF_wf {o r s : Box2D} (hr : r.wf) (ho : o.wf) (h : s ∈ splitF o r) :
    s.wf := by
  unfold splitF at h
  by_cases hint : r.intersects o = true
  · rw [if_pos hint] at h
    exact mem_splitBands_wf hr ho hint h
  · rw [if_neg hint] at h
    rw [List.mem_singleton.mp h]
    exact hr

theorem splitF_pairwise {o : Box2D} (ho : o.wf) (r : Box2D) :
    List.Pairwise (fun a b : Box2D => a.intersects b = false) (splitF o r) := by
  unfold splitF
  by_cases hint : r.intersects o = true
  · rw [if_pos hint]
    exact splitBands_pairwise ho r
  · rw [if_neg hint]
    exact List.pairwise_singleton _ _

theorem mem_boxesUnion {l : List Box2D} {p : ℚ × ℚ} :
    p ∈ boxesUnion l ↔ ∃ b ∈ l, p ∈ b.toSet := Iff.rfl

theorem boxesUnion_nil : boxesUnion [] = ∅ := by
  ext p
  simp [boxesUnion]

theorem boxesUnion_singleton {b : Box2D} : boxesUnion [b] = b.toSet := by
  ext p
  simp [boxesUnion]

theorem boxesUnion_cons {b : Box2D} {l : List Box2D} :
    boxesUnion (b :: l) = b.toSet ∪ boxesUnion l := by
  ext p
  simp only [mem_boxesUnion, List.mem_cons, Set.mem_union]
  constructor
  · rintro ⟨c, hc | hc, hp⟩
    · exact Or.inl (hc ▸ hp)
    · exact Or.inr ⟨c, hc, hp⟩
  · rintro (hp | ⟨c, hc, hp⟩)
    · exact ⟨b, Or.inl rfl, hp⟩
    · exact ⟨c, Or.inr hc, hp⟩

theorem boxesUnion_append {l m : List Box2D} :
    boxesUnion (l ++ m) = boxesUnion l ∪ boxesUnion m := by
  ext p
  simp only [mem_boxesUnion, List.mem_append, Set.mem_union]
  constructor
  · rintro ⟨c, hc | hc, hp⟩
    · exact Or.inl ⟨c, hc, hp⟩
    · exact Or.inr ⟨c, hc, hp⟩
  · rintro (⟨c, hc, hp⟩ | ⟨c, hc, hp⟩)
    · exact ⟨c, Or.inl hc, hp⟩
    · exact ⟨c, Or.inr hc, hp⟩

theorem boxesUnion_perm {l m : List Box2D} (h : l.Perm m) : boxesUnion l = boxesUnion m := by
  ext p
  simp only [mem_boxesUnion]
  constructor <;> rintro ⟨b, hb, hp⟩
  · exact ⟨b, h.mem_iff.mp hb, hp⟩
  · exact ⟨b, h.mem_iff.mpr hb, hp⟩

theorem toSet_disjoint_of_not_intersects {a b : Box2D} (h : a.intersects b = false) :
    a.toSet ∩ b.toSet = ∅ := by
  ext p
  simp only [Set.mem_inter_iff, Set.mem_empty_iff_false, iff_false, not_and]
  intro ha hb
  have := Box2D.intersects_of_mem ha hb
  rw [this] at h
  cases h

/-- Exactness of the per-fragment split: the union of the emitted bands is the
half-open set difference `r \ o`. -/
theorem splitBands_union {o r : Box2D} (hint : r.intersects o = true) :
    boxesUnion (splitBands o r) = r.toSet \ o.toSet := by
  have hi := Box2D.intersects_iff.mp hint
  ext p
  simp only [mem_boxesUnion, Set.mem_diff, Box2D.mem_toSet]
  constructor
  · rintro ⟨b, hb, hp⟩
    rcases mem_splitBands.mp hb with ⟨⟨c1, c2⟩, rfl⟩ | ⟨⟨c1, c2⟩, rfl⟩ | ⟨⟨c1, c2⟩, rfl⟩ |
      ⟨⟨c1, c2⟩, rfl⟩ <;> simp only [Box2D.mem_toSet] at hp
    · exact ⟨⟨hp.1, hp.2.1, hp.2.2.1, hp.2.2.2.trans c2⟩,
        fun ho => absurd ho.2.2.1 (not_le.mpr hp.2.2.2)⟩
    · exact ⟨⟨hp.1, hp.2.1, le_trans (le_of_lt c2) hp.2.2.1, hp.2.2.2⟩,
        fun ho => absurd ho.2.2.2 (not_lt.mpr hp.2.2.1)⟩
    · exact ⟨⟨hp.1, hp.2.1.trans hi.2.1, le_trans (le_max_left _ _) hp.2.2.1,
        lt_of_lt_of_le hp.2.2.2 (min_le_left _ _)⟩,
        fun ho => absurd ho.1 (not_le.mpr hp.2.1)⟩
    · exact ⟨⟨le_trans (le_of_lt hi.1) hp.1, hp.2.1, le_trans (le_max_left _ _) hp.2.2.1,
        lt_of_lt_of_le hp.2.2.2 (min_le_left _ _)⟩,
        fun ho => absurd ho.2.1 (not_lt.mpr hp.1)⟩
  · rintro ⟨⟨h1, h2, h3, h4⟩, ho⟩
    by_cases hy1 : p.2 < o.min.y
    · refine ⟨⟨r.min, ⟨r.max.x, o.min.y⟩⟩, ?_, ?_⟩
      · exact mem_splitBands.mpr (Or.inl ⟨⟨lt_of_le_of_lt h3 hy1, hi.2.2.2⟩, rfl⟩)
      · exact ⟨h1, h2, h3, hy1⟩
    by_cases hy2 : o.max.y ≤ p.2
    · refine ⟨⟨⟨r.min.x, o.max.y⟩, r.max⟩, ?_, ?_⟩
      · exact mem_splitBands.mpr (Or.inr (Or.inl ⟨⟨lt_of_le_of_lt hy2 h4, hi.2.2.1⟩, rfl⟩))
      · exact ⟨h1, h2, hy2, h4⟩
    have hy1' : o.min.y ≤ p.2 := not_lt.mp hy1
    have hy2' : p.2 < o.max.y := not_le.mp hy2
    by_cases hx1 : p.1 < o.min.x
    · refine ⟨⟨⟨r.min.x, max r.min.y o.min.y⟩, ⟨o.min.x, min r.max.y o.max.y⟩⟩, ?_, ?_⟩
      · exact mem_splitBands.mpr (Or.inr (Or.inr (Or.inl
          ⟨⟨lt_of_le_of_lt h1 hx1, hi.2.1⟩, rfl⟩)))
      · exact ⟨h1, hx1, max_le h3 hy1', lt_min h4 hy2'⟩
    have hx2 : o.max.x ≤ p.1 :=
      le_of_not_lt (fun hlt => ho ⟨not_lt.mp hx1, hlt, hy1', hy2'⟩)
    refine ⟨⟨⟨o.max.x, max r.min.y o.min.y⟩, ⟨r.max.x, min r.max.y o.max.y⟩⟩, ?_, ?_⟩
    · exact mem_splitBands.mpr (Or.inr (Or.inr (Or.inr
        ⟨⟨lt_of_le_of_lt hx2 h2, hi.1⟩, rfl⟩)))
    · exact ⟨hx2, h2, max_le h3 hy1', lt_min h4 hy2'⟩

theorem splitF_union (o r : Box2D) : boxesUnion (splitF o r) = r.toSet \ o.toSet := by
  unfold splitF
  by_cases hint : r.intersects o = true
  · rw [if_pos hint]
    exact splitBands_union hint
  · rw [if_neg hint]
    rw [boxesUnion_singleton]
    have hd : r.toSet ∩ o.toSet = ∅ :=
      toSet_disjoint_of_not_intersects (by simpa using hint)
    ext p
    simp only [Set.mem_diff]
    constructor
    · intro hp
      refine ⟨hp, fun hop => ?_⟩
      have : p ∈ r.toSet ∩ o.toSet := ⟨hp, hop⟩
      rw [hd] at this
      exact this
    · exact fun hp => hp.1

theorem boxesUnion_flatMap_splitF (o : Box2D) (F : List Box2D) :
    boxesUnion (F.flatMap (splitF o)) = boxesUnion F \ o.toSet := by
  induction F with
  | nil =>
    simp [boxesUnion_nil]
  | cons f F ih =>
    rw [List.flatMap_cons, boxesUnion_append, ih, boxesUnion_cons, splitF_union,
      Set.union_diff_distrib]

/-- `apply_occluder` subtracts exactly the occluder's area from the working set. -/
theorem apply_occluder_union (o : Box2D) (F : List Box2D) :
    boxesUnion (apply_occluder o F) = boxesUnion F \ o.toSet := by
  rw [boxesUnion_perm (apply_occluder_perm o F), boxesUnion_flatMap_splitF]

/-- Every fragment in the output of `apply_occluder` descends from a fragment
of the input. -/
theorem mem_apply_occluder {o : Box2D} {F : List Box2D} {g : Box2D}
    (h : g ∈ apply_occluder o F) : ∃ f ∈ F, g ∈ splitF o f :=
  List.mem_flatMap.mp ((apply_occluder_perm o F).mem_iff.mp h)

theorem addFrags_nil_frags (rect : Box2D) (items : List Item) :
    addFrags rect items [] = [] := by
  cases items <;> simp [addFrags]

/-- Area conservation through the `add` loop: the final fragments cover the
initial fragments minus exactly the occluders that intersect `rect`. -/
theorem addFrags_union (rect : Box2D) :
    ∀ (items : List Item) (frags : List Box2D),
      boxesUnion (addFrags rect items frags) =
        boxesUnion frags \
          boxesUnion ((items.filter (fun it => it.rectangle.intersects rect)).map
            Item.rectangle) := by
  intro items
  induction items with
  | nil =>
    intro frags
    simp [addFrags, boxesUnion_nil]
  | cons item rest ih =>
    intro frags
    simp only [addFrags]
    by_cases he : frags.isEmpty
    · rw [if_pos he, List.isEmpty_iff.mp he, boxesUnion_nil, Set.empty_diff]
    · rw [if_neg he]
      by_cases hint : item.rectangle.intersects rect = true
      · rw [if_pos hint, ih, apply_occluder_union, List.filter_cons, if_pos hint,
          List.map_cons, boxesUnion_cons, Set.diff_diff]
      · rw [if_neg hint, ih, List.filter_cons,
          if_neg (by simpa using hint)]

/-- Every fragment surviving the `add` loop is a sub-rectangle of one of the
initial fragments. -/
theorem addFrags_ancestor (rect : Box2D) :
    ∀ (items : List Item) (frags : List Box2D) (g : Box2D),
      g ∈ addFrags rect items frags → ∃ f ∈ frags, g.containedIn f := by
  intro items
  induction items with
  | nil =>
    intro frags g hg
    exact ⟨g, hg, Box2D.containedIn_refl g⟩
  | cons item rest ih =>
    intro frags g hg
    simp only [addFrags] at hg
    by_cases he : frags.isEmpty
    · rw [if_pos he] at hg
      exact ⟨g, hg, Box2D.containedIn_refl g⟩
    · rw [if_neg he] at hg
      by_cases hint : item.rectangle.intersects rect = true
      · rw [if_pos hint] at hg
        obtain ⟨f', hf', hgf'⟩ := ih _ g hg
        obtain ⟨f, hf, hff'⟩ := mem_apply_occluder hf'
        exact ⟨f, hf, Box2D.containedIn_trans hgf' (mem_splitF_containedIn hff')⟩
      · rw [if_neg hint] at hg
        exact ih _ g hg

theorem apply_occluder_wf {o : Box2D} {F : List Box2D} (ho : o.wf)
    (hF : ∀ f ∈ F, f.wf) : ∀ g ∈ apply_occluder o F, g.wf := by
  intro g hg
  obtain ⟨f, hf, hgf⟩ := mem_apply_occluder hg
  exact mem_splitF_wf (hF f hf) ho hgf

theorem pairwise_flatMap_splitF {o : Box2D} (ho : o.wf) :
    ∀ {F : List Box2D},
      List.Pairwise (fun a b : Box2D => a.intersects b = false) F →
      List.Pairwise (fun a b : Box2D => a.intersects b = false) (F.flatMap (splitF o)) := by
  intro F
  induction F with
  | nil =>
    intro _
    simp
  | cons f F ih =>
    intro hp
    rw [List.flatMap_cons]
    rcases List.pairwise_cons.mp hp with ⟨hhead, htail⟩
    refine List.pairwise_append.mpr ⟨splitF_pairwise ho f, ih htail, ?_⟩
    intro s hs t ht
    obtain ⟨f₂, hf₂, htf₂⟩ := List.mem_flatMap.mp ht
    by_contra hc
    rw [Bool.not_eq_false] at hc
    have h1 : f.intersects t = true :=
      Box2D.intersects_of_containedIn (mem_splitF_containedIn hs) hc
    rw [Box2D.intersects_comm] at h1
    have h2 : f₂.intersects f = true :=
      Box2D.intersects_of_containedIn (mem_splitF_containedIn htf₂) h1
    rw [Box2D.intersects_comm] at h2
    rw [hhead f₂ hf₂] at h2
    cases h2

theorem apply_occluder_pairwise {o : Box2D} {F : List Box2D} (ho : o.wf)
    (hp : List.Pairwise (fun a b : Box2D => a.intersects b = false) F) :
    List.Pairwise (fun a b : Box2D => a.intersects b = false) (apply_occluder o F) := by
  have hsymm : ∀ {x y : Box2D}, x.intersects y = false → y.intersects x = false := by
    intro x y h
    rw [Box2D.intersects_comm]
    exact h
  exact ((apply_occluder_perm o F).pairwise_iff hsymm).mpr (pairwise_flatMap_splitF ho hp)

/-- Fragments stay well-formed and pairwise non-overlapping through the `add`
loop (the occluders must be well-formed). -/
theorem addFrags_wf_pairwise (rect : Box2D) :
    ∀ (items : List Item) (frags : List Box2D),
      (∀ it ∈ items, it.rectangle.wf) →
      (∀ f ∈ frags, f.wf) →
      List.Pairwise (fun a b : Box2D => a.intersects b = false) frags →
      (∀ g ∈ addFrags rect items frags, g.wf) ∧
        List.Pairwise (fun a b : Box2D => a.intersects b = false)
          (addFrags rect items frags) := by
  intro items
  induction items with
  | nil =>
    intro frags _ hwf hp
    exact ⟨hwf, hp⟩
  | cons item rest ih =>
    intro frags hitems hwf hp
    simp only [addFrags]
    by_cases he : frags.isEmpty
    · rw [if_pos he]
      exact ⟨hwf, hp⟩
    · rw [if_neg he]
      have hitem : item.rectangle.wf := hitems item (List.mem_cons_self _ _)
      have hrest : ∀ it ∈ rest, it.rectangle.wf :=
        fun it hit => hitems it (List.mem_cons_of_mem _ hit)
      by_cases hint : item.rectangle.intersects rect = true
      · rw [if_pos hint]
        exact ih _ hrest (apply_occluder_wf hitem hwf) (apply_occluder_pairwise hitem hp)
      · rw [if_neg hint]
        exact ih _ hrest hwf hp

/-- Fragments surviving the `add` loop intersect none of the walked opaque
items, provided the initial fragments are contained in `rect`. -/
theorem addFrags_not_intersects (rect : Box2D) :
    ∀ (items : List Item) (frags : List Box2D),
      (∀ f ∈ frags, f.containedIn rect) →
      ∀ g ∈ addFrags rect items frags, ∀ it ∈ items,
        g.intersects it.rectangle = false := by
  intro items
  induction items with
  | nil =>
    intro frags _ g _ it hit
    cases hit
  | cons item rest ih =>
    intro frags hc g hg it hit
    simp only [addFrags] at hg
    by_cases he : frags.isEmpty
    · rw [if_pos he, List.isEmpty_iff.mp he] at hg
      cases hg
    · rw [if_neg he] at hg
      by_cases hint : item.rectangle.intersects rect = true
      · rw [if_pos hint] at hg
        have hc' : ∀ f' ∈ apply_occluder item.rectangle frags, f'.containedIn rect := by
          intro f' hf'
          obtain ⟨f, hf, hff'⟩ := mem_apply_occluder hf'
          exact Box2D.containedIn_trans (mem_splitF_containedIn hff') (hc f hf)
        rcases List.mem_cons.mp hit with rfl | hit'
        · obtain ⟨f', hf', hgf'⟩ := addFrags_ancestor rect rest _ g hg
          obtain ⟨f, hf, hff'⟩ := mem_apply_occluder hf'
          exact Box2D.not_intersects_of_containedIn hgf' (mem_splitF_not_intersects hff')
        · exact ih _ hc' g hg it hit'
      · rw [if_neg hint] at hg
        rcases List.mem_cons.mp hit with rfl | hit'
        · obtain ⟨f, hf, hgf⟩ := addFrags_ancestor rect rest frags g hg
          have hgrect : g.containedIn rect := Box2D.containedIn_trans hgf (hc f hf)
          have h0 : rect.intersects it.rectangle = false := by
            rw [Box2D.intersects_comm]
            simpa using hint
          exact Box2D.not_intersects_of_containedIn hgrect h0
        · exact ih frags hc g hg it hit'

theorem add_opaque_items (b : FrontToBackBuilder) (rect : Box2D) (q : Bool) (k : ℕ) :
    (b.add rect q k).1.opaque_items =
      b.opaque_items ++
        (if q then (addFragments b rect).map
          (fun r => { rectangle := r, key := k : Item }) else []) := by
  cases q <;> simp [FrontToBackBuilder.add]

theorem add_alpha_items (b : FrontToBackBuilder) (rect : Box2D) (q : Bool) (k : ℕ) :
    (b.add rect q k).1.alpha_items =
      b.alpha_items ++
        (if q then [] else (addFragments b rect).map
          (fun r => { rectangle := r, key := k : Item })) := by
  cases q <;> simp [FrontToBackBuilder.add]

theorem addedItems_eq (b : FrontToBackBuilder) (rect : Box2D) (q : Bool) (k : ℕ) :
    addedItems b rect q k =
      (addFragments b rect).map (fun r => { rectangle := r, key := k : Item }) := by
  cases q <;>
    simp [addedItems, add_opaque_items, add_alpha_items, List.drop_left]

/-- The internal invariant of the front-to-back builder: stored opaque
rectangles are well-formed and pairwise non-overlapping. -/
def OpaqueInv (b : FrontToBackBuilder) : Prop :=
  (∀ it ∈ b.opaque_items, it.rectangle.wf) ∧
  List.Pairwise (fun a c : Item => a.rectangle.intersects c.rectangle = false)
    b.opaque_items

theorem opaqueInv_new : OpaqueInv FrontToBackBuilder.new := by
  constructor <;> simp [FrontToBackBuilder.new]

theorem opaqueInv_add {b : FrontToBackBuilder} (hb : OpaqueInv b) {rect : Box2D}
    (hrect : rect.wf) (q : Bool) (k : ℕ) : OpaqueInv (b.add rect q k).1 := by
  have hfr : ∀ f ∈ ([rect] : List Box2D), f.wf := by
    intro f hf
    rw [List.mem_singleton.mp hf]
    exact hrect
  have hfrc : ∀ f ∈ ([rect] : List Box2D), f.containedIn rect := by
    intro f hf
    rw [List.mem_singleton.mp hf]
    exact Box2D.containedIn_refl rect
  have hmain := addFrags_wf_pairwise rect b.opaque_items [rect] hb.1 hfr
    (List.pairwise_singleton _ _)
  have hnoint := addFrags_not_intersects rect b.opaque_items [rect] hfrc
  cases q
  · constructor
    · rw [add_opaque_items]
      simpa using hb.1
    · rw [add_opaque_items]
      simpa using hb.2
  · constructor
    · rw [add_opaque_items]
      simp only [if_pos]
      intro it hit
      rcases List.mem_append.mp hit with hold | hnew
      · exact hb.1 it hold
      · obtain ⟨g, hg, rfl⟩ := List.mem_map.mp hnew
        exact hmain.1 g hg
    · rw [add_opaque_items]
      simp only [if_pos]
      refine List.pairwise_append.mpr ⟨hb.2, ?_, ?_⟩
      · exact List.pairwise_map.mpr hmain.2
      · intro a ha c hc
        obtain ⟨g, hg, rfl⟩ := List.mem_map.mp hc
        have := hnoint g hg a ha
        rw [Box2D.intersects_comm] at this
        exact this

/-- Every reachable builder state satisfies the opaque invariant. -/
theorem reachable_opaqueInv {b : FrontToBackBuilder} (h : Reachable b) : OpaqueInv b := by
  induction h with
  | new => exact opaqueInv_new
  | add b rect q k _ hwf ih => exact opaqueInv_add ih hwf q k

theorem add_snd (b : FrontToBackBuilder) (rect : Box2D) (q : Bool) (k : ℕ) :
    (b.add rect q k).2 = !(addFragments b rect).isEmpty := rfl

/-- Modelled from the spec (section 4.2 per-fragment decomposition): the four
candidate remainder bands, in the spec's order (top, bottom, left, right),
with the left/right bands vertically clipped to the intersection of `r`'s and
`o`'s y-ranges. -/
def specBands (o r : Box2D) : List Box2D :=
  (if r.min.y < o.min.y ∧ r.max.y > o.min.y then
    [⟨r.min, ⟨r.max.x, o.min.y⟩⟩] else []) ++
  (if r.max.y > o.max.y ∧ r.min.y < o.max.y then
    [⟨⟨r.min.x, o.max.y⟩, r.max⟩] else []) ++
  (if r.min.x < o.min.x ∧ r.max.x > o.min.x then
    [⟨⟨r.min.x, max r.min.y o.min.y⟩, ⟨o.min.x, min r.max.y o.max.y⟩⟩] else []) ++
  (if r.max.x > o.max.x ∧ r.min.x < o.max.x then
    [⟨⟨o.max.x, max r.min.y o.min.y⟩, ⟨r.max.x, min r.max.y o.max.y⟩⟩] else [])

theorem specBands_eq_splitBands (o r : Box2D) : specBands o r = splitBands o r := rfl

/-- C1: every fragment appended by a single `add(rect, _, key)` call is a
sub-rectangle of (or equal to) `rect`, and the union of the appended
fragments' half-open point sets equals `rect`'s point set minus the union of
the opaque rectangles stored before the call that intersect `rect` — no
visible area is gained or lost. -/
theorem add_visibility_conservation (b : FrontToBackBuilder) (rect : Box2D)
    (q : Bool) (k : ℕ) :
    (∀ it ∈ addedItems b rect q k, it.rectangle.containedIn rect) ∧
    boxesUnion ((addedItems b rect q k).map Item.rectangle) =
      rect.toSet \
        boxesUnion ((b.opaque_items.filter
          (fun it => it.rectangle.intersects rect)).map Item.rectangle) := by
  rw [addedItems_eq]
  constructor
  · intro it hit
    obtain ⟨g, hg, rfl⟩ := List.mem_map.mp hit
    obtain ⟨f, hf, hgf⟩ := addFrags_ancestor rect b.opaque_items [rect] g hg
    rw [List.mem_singleton.mp hf] at hgf
    exact hgf
  · rw [List.map_map]
    have hid : (Item.rectangle ∘ fun r => { rectangle := r, key := k : Item }) =
        id := rfl
    rw [hid, List.map_id]
    rw [show addFragments b rect = addFrags rect b.opaque_items [rect] from rfl,
      addFrags_union, boxesUnion_singleton]

/-- C2: after any sequence of `add` calls with well-formed rectangles starting
from `new()`, the stored opaque rectangles are pairwise non-overlapping. -/
theorem opaque_items_pairwise_non_overlapping {b : FrontToBackBuilder}
    (h : Reachable b) :
    List.Pairwise (fun a c : Item => a.rectangle.intersects c.rectangle = false)
      b.opaque_items :=
  (reachable_opaqueInv h).2

def witnessBuilder : FrontToBackBuilder :=
  ((FrontToBackBuilder.new.add ⟨⟨0, 0⟩, ⟨4, 4⟩⟩ true 0).1.add ⟨⟨2, 2⟩, ⟨6, 6⟩⟩ true 1).1

theorem opaque_items_pairwise_non_overlapping_witness :
    List.Pairwise (fun a c : Item => a.rectangle.intersects c.rectangle = false)
      witnessBuilder.opaque_items :=
  opaque_items_pairwise_non_overlapping
    (Reachable.add _ _ _ _ (Reachable.add _ _ _ _ Reachable.new (by decide)) (by decide))

def occA : Box2D := ⟨⟨0, 0⟩, ⟨10, 5⟩⟩
def occB : Box2D := ⟨⟨0, 5⟩, ⟨10, 10⟩⟩
def pointC : Box2D := ⟨⟨5, 5⟩, ⟨5, 5⟩⟩

/-- A state reachable through three well-formed opaque `add` calls: two boxes
tiling `(0,0)-(10,10)` plus the degenerate point `(5,5)` (which intersects
neither stored box, so it survives as an opaque item). -/
def panicBuilder : FrontToBackBuilder :=
  (((FrontToBackBuilder.new.add occA true 0).1.add occB true 1).1.add pointC true 2).1

def panicRect : Box2D := ⟨⟨0, 0⟩, ⟨10, 10⟩⟩

theorem panicBuilder_reachable : Reachable panicBuilder :=
  Reachable.add _ _ _ _ (Reachable.add _ _ _ _ (Reachable.add _ _ _ _
    Reachable.new (by decide)) (by decide)) (by decide)

/-- C3 (bug exhibit): on the reachable state `panicBuilder`, `test panicRect`
reaches an `apply_occluder` call with an empty fragment vector — in the Rust
source that call evaluates `rects.len() - 1` on an empty vector and panics —
while `add` of the same rectangle on the same state returns `false`.  So
`test` does not return the boolean the immediately following `add` would
return, and its run is observably different. -/
theorem test_diverges_from_add_on_reachable_state :
    Reachable panicBuilder ∧ testPanics panicBuilder panicRect = true ∧
      (panicBuilder.add panicRect false 7).2 = false :=
  ⟨panicBuilder_reachable, by decide, by decide⟩

theorem addCallsEmpty_false (rect : Box2D) :
    ∀ (items : List Item) (frags : List Box2D), addCallsEmpty rect items frags = false := by
  intro items
  induction items with
  | nil =>
    intro frags
    rfl
  | cons item rest ih =>
    intro frags
    simp only [addCallsEmpty]
    by_cases he : frags.isEmpty = true
    · rw [if_pos he]
    · rw [if_neg he]
      rw [Bool.not_eq_true] at he
      by_cases hint : item.rectangle.intersects rect = true
      · rw [if_pos hint, he, ih]
        rfl
      · rw [if_neg hint]
        exact ih _

/-- C9: `add` can never call `apply_occluder` with an empty fragment vector
(its loop breaks out first), but `test` can on a reachable builder state, so
the claim that neither operation reaches the out-of-bounds index panic fails
for `test`. -/
theorem apply_occluder_empty_call_safety :
    (∀ (b : FrontToBackBuilder) (rect : Box2D), addPanics b rect = false) ∧
      Reachable panicBuilder ∧ testPanics panicBuilder panicRect = true :=
  ⟨fun b rect => addCallsEmpty_false rect b.opaque_items [rect],
    panicBuilder_reachable, by decide⟩

theorem b2fSubmit_commands_aux :
    ∀ (cmds : List (Box2D × Bool × ℕ)) (acc : BackToFrontBuilder),
      (cmds.foldl (fun a c => a.add c.1 c.2.1 c.2.2) acc).commands =
        acc.commands ++ cmds := by
  intro cmds
  induction cmds with
  | nil =>
    intro acc
    simp
  | cons c cs ih =>
    intro acc
    rw [List.foldl_cons, ih]
    simp [BackToFrontBuilder.add]

theorem b2fSubmit_commands (cmds : List (Box2D × Bool × ℕ)) :
    (b2fSubmit cmds).commands = cmds := by
  have h := b2fSubmit_commands_aux cmds BackToFrontBuilder.new
  simpa [b2fSubmit, BackToFrontBuilder.new] using h

/-- C4: for any scene submitted to the back-to-front adapter and then built,
the adapter's opaque items are, as a multiset of rectangles (here even as the
same list), those of a fresh front-to-back builder fed the commands in
reverse order, and the adapter's alpha items are exactly the reverse of that
builder's alpha list. -/
theorem back_to_front_equivalence (cmds : List (Box2D × Bool × ℕ)) :
    (((b2fSubmit cmds).build.opaque_items.map Item.rectangle : List Box2D) :
        Multiset Box2D) =
      (((ftbReplay cmds.reverse).opaque_items.map Item.rectangle : List Box2D) :
        Multiset Box2D) ∧
    (b2fSubmit cmds).build.alpha_items = (ftbReplay cmds.reverse).alpha_items.reverse := by
  have h : (b2fSubmit cmds).build =
      { commands := [],
        opaque_items := (ftbReplay cmds.reverse).opaque_items,
        alpha_items := (ftbReplay cmds.reverse).alpha_items.reverse } := by
    unfold BackToFrontBuilder.build
    rw [b2fSubmit_commands]
  rw [h]
  exact ⟨rfl, rfl⟩

/-- C10: `build()` leaves the pending command buffer empty, so an immediately
following second `build()` recomputes from no commands and leaves both result
lists empty (the previous results are overwritten, not preserved). -/
theorem build_clears_commands_and_rebuild_is_empty (b : BackToFrontBuilder) :
    b.build.commands = [] ∧ b.build.build.opaque_items = [] ∧
      b.build.build.alpha_items = [] :=
  ⟨rfl, rfl, rfl⟩

/-- C5: `apply_occluder` rewrites, up to order, every fragment `r` of the
working vector as follows: if `r` intersects the occluder it is replaced by
exactly the bands of `specBands` (top band iff `r.min.y < o.min.y` and
`r.max.y > o.min.y`, bottom band iff `r.max.y > o.max.y` and
`r.min.y < o.max.y`, left/right bands vertically clipped to the intersected
y-range iff the corresponding strict x conditions hold), and a fragment not
intersecting the occluder is kept with nothing emitted for it. -/
theorem apply_occluder_emits_spec_bands (o : Box2D) (F : List Box2D) :
    (apply_occluder o F).Perm
      (F.flatMap (fun r => if r.intersects o = true then specBands o r else [r])) := by
  have h : (fun r => if r.intersects o = true then specBands o r else [r]) = splitF o := by
    funext r
    rw [specBands_eq_splitBands]
    rfl
  rw [h]
  exact apply_occluder_perm o F

/-- C6 (counterexample): on the empty builder, adding the zero-area rectangle
at the origin returns `true` and appends one item, contradicting the claim
that a zero-area `add` appends nothing and returns `false`. -/
theorem degenerate_add_counterexample :
    (FrontToBackBuilder.new.add ⟨⟨0, 0⟩, ⟨0, 0⟩⟩ true 0).2 = true ∧
    (FrontToBackBuilder.new.add ⟨⟨0, 0⟩, ⟨0, 0⟩⟩ true 0).1.opaque_items =
      [{ rectangle := ⟨⟨0, 0⟩, ⟨0, 0⟩⟩, key := 0 }] := by
  exact ⟨rfl, rfl⟩

theorem addFrags_point (rect : Box2D) (hx : rect.min.x = rect.max.x)
    (hy : rect.min.y = rect.max.y) :
    ∀ (items : List Item),
      addFrags rect items [rect] =
        if items.any (fun it => it.rectangle.intersects rect) then [] else [rect] := by
  intro items
  induction items with
  | nil =>
    rfl
  | cons item rest ih =>
    simp only [addFrags, List.any_cons]
    rw [if_neg (by simp : ¬([rect] : List Box2D).isEmpty = true)]
    by_cases hint : item.rectangle.intersects rect = true
    · rw [if_pos hint]
      have hint' : rect.intersects item.rectangle = true := by
        rw [Box2D.intersects_comm]
        exact hint
      have hs : splitBands item.rectangle rect = [] :=
        splitBands_eq_nil_of_point _ _ hx hy
      have happ : apply_occluder item.rectangle [rect] = [] := by
        show occludeStep item.rectangle [rect] 0 = []
        unfold occludeStep
        simp [hint', hs, swapRemove]
      rw [happ, addFrags_nil_frags, if_pos (by rw [hint, Bool.true_or])]
    · rw [if_neg hint, ih]
      rw [Bool.not_eq_true] at hint
      simp [hint]

/-- C6 (amended): an `add` of a zero-area rectangle (`min == max`) appends
nothing and returns `false` exactly when some stored opaque item intersects
the rectangle; otherwise it appends the single zero-area rectangle itself
(never any fragment of positive area) and returns `true`. -/
theorem degenerate_add_amended (b : FrontToBackBuilder) (rect : Box2D) (q : Bool)
    (k : ℕ) (h : rect.min = rect.max) :
    addedItems b rect q k =
      (if b.opaque_items.any (fun it => it.rectangle.intersects rect) then []
       else [{ rectangle := rect, key := k }]) ∧
    (b.add rect q k).2 =
      !b.opaque_items.any (fun it => it.rectangle.intersects rect) := by
  have hx : rect.min.x = rect.max.x := by rw [h]
  have hy : rect.min.y = rect.max.y := by rw [h]
  have hf : addFragments b rect =
      if b.opaque_items.any (fun it => it.rectangle.intersects rect) then []
      else [rect] :=
    addFrags_point rect hx hy b.opaque_items
  constructor
  · rw [addedItems_eq, hf]
    by_cases ha : b.opaque_items.any (fun it => it.rectangle.intersects rect) = true <;>
      simp [ha]
  · rw [add_snd, hf]
    by_cases ha : b.opaque_items.any (fun it => it.rectangle.intersects rect) = true <;>
      simp [ha]

def coveredPoint : Box2D := ⟨⟨5, 5⟩, ⟨5, 5⟩⟩

def coveringBuilder : FrontToBackBuilder :=
  (FrontToBackBuilder.new.add ⟨⟨0, 0⟩, ⟨10, 10⟩⟩ true 0).1

theorem degenerate_add_amended_witness :
    addedItems coveringBuilder coveredPoint true 1 = [] ∧
      (coveringBuilder.add coveredPoint true 1).2 = false := by
  obtain ⟨h1, h2⟩ := degenerate_add_amended coveringBuilder coveredPoint true 1 rfl
  constructor
  · rw [h1]
    decide
  · rw [h2]
    decide

/-- C7: the concrete scenario of the spec and of the crate's `basic` test:
an opaque `(0,0)-(100,100)` with key 0 followed by an alpha
`(50,50)-(150,150)` with key 1 yields exactly the expected opaque and alpha
lists, in order. -/
theorem basic_scenario :
    ((FrontToBackBuilder.new.add ⟨⟨0, 0⟩, ⟨100, 100⟩⟩ true 0).1.add
        ⟨⟨50, 50⟩, ⟨150, 150⟩⟩ false 1).1 =
      { opaque_items := [{ rectangle := ⟨⟨0, 0⟩, ⟨100, 100⟩⟩, key := 0 }],
        alpha_items := [{ rectangle := ⟨⟨100, 50⟩, ⟨150, 100⟩⟩, key := 1 },
          { rectangle := ⟨⟨50, 100⟩, ⟨150, 150⟩⟩, key := 1 }] } := by
  decide

/-- C8: an `add` call only appends: both stored lists keep all their previous
items in place, the surviving fragments are appended (each carrying `key`) to
the opaque list if the opacity flag is set and to the alpha list otherwise,
and the other list is entirely unchanged. -/
theorem add_only_appends (b : FrontToBackBuilder) (rect : Box2D) (q : Bool) (k : ℕ) :
    (b.add rect q k).1.opaque_items =
      b.opaque_items ++
        (if q then (addFragments b rect).map
          (fun r => { rectangle := r, key := k : Item }) else []) ∧
    (b.add rect q k).1.alpha_items =
      b.alpha_items ++
        (if q then [] else (addFragments b rect).map
          (fun r => { rectangle := r, key := k : Item })) ∧
    ∀ it ∈ addedItems b rect q k, it.key = k := by
  refine ⟨add_opaque_items b rect q k, add_alpha_items b rect q k, ?_⟩
  rw [addedItems_eq]
  intro it hit
  obtain ⟨g, _, rfl⟩ := List.mem_map.mp hit
  rfl

end RectOcclusion
